import Mathlib

/-!
Verification development for the gdprhub extraction / ingestion / retrieval
pipeline.  The Python sources are embedded shallowly: pure string processing
becomes functions on `List Char`, JSON objects become association lists,
the external vector index (spec §6) becomes a list of chunks with
delete-by-document-id and append semantics, and Python exceptions become
`Except.error` values.  Regular expressions from the sources are embedded as
equivalent explicit scanners; scanners that skip over consumed input are
written with an explicit fuel argument (the wrapper always supplies
`length + 1`, which is sufficient, and fuel-irrelevance is proved).
-/

/-- ASCII whitespace, as recognised by Python's `str.strip()` and the regex
class `\s` (restricted to ASCII, which covers every input considered here). -/
def pyWs (c : Char) : Bool :=
  c = ' ' || c = '\t' || c = '\n' || c = '\r' || c = '\x0b' || c = '\x0c'

/-- Remove trailing ASCII whitespace. -/
def dropTrailWs (l : List Char) : List Char :=
  (l.reverse.dropWhile pyWs).reverse

/-- Python's `str.strip()`: remove leading and trailing whitespace. -/
def pstrip (l : List Char) : List Char :=
  dropTrailWs (l.dropWhile pyWs)

/-- `str.strip()` on `String`. -/
def pstripS (s : String) : String := ⟨pstrip s.data⟩

/-- Lower-case a character list (models Python's `str.lower()` /
`re.IGNORECASE` comparison on ASCII). -/
def lcList (l : List Char) : List Char := l.map Char.toLower

/-- Split a character list at the first `'>'`: returns the part strictly
before it and the part strictly after it, or `none` when there is no `'>'`.
This is how the regexes `<[^>]+>` and `<(script|style).*?>` locate the
closing angle bracket: `[^>]+` and the lazy `.*?` both stop at the first
`'>'`. -/
def splitGt (l : List Char) : Option (List Char × List Char) :=
  match l.dropWhile (fun c => !(c = '>')) with
  | _ :: after => some (l.takeWhile (fun c => !(c = '>')), after)
  | [] => none

theorem splitGt_length {l a b : List Char} (h : splitGt l = some (a, b)) :
    b.length < l.length := by
  unfold splitGt at h
  rcases hd : l.dropWhile (fun c => !(c = '>')) with _ | ⟨x, after⟩ <;> rw [hd] at h
  · exact absurd h (by simp)
  · have hsub : List.Sublist (l.dropWhile (fun c => !(c = '>'))) l :=
      List.dropWhile_sublist _
    have hlen : (x :: after).length ≤ l.length := hd ▸ hsub.length_le
    simp only [Option.some.injEq, Prod.mk.injEq] at h
    have : after = b := h.2
    subst this
    simpa using Nat.lt_of_lt_of_le (Nat.lt_succ_self _) hlen

/-- One tag-stripping step of `re.sub(r'<[^>]+>', '', s)`, with fuel.
At a `'<'`, the regex matches iff there is a later `'>'` with at least one
character in between; on a match the whole span is dropped and scanning
resumes after the `'>'`; otherwise the `'<'` is kept and scanning resumes
with the next character (exactly how Python's scanner advances on a failed
attempt).  Fuel `0` (never reached from the wrapper) returns the input. -/
def removeTagsF : Nat → List Char → List Char
  | 0, l => l
  | _ + 1, [] => []
  | fuel + 1, c :: rest =>
    if c = '<' then
      match splitGt rest with
      | some (a, after) =>
        if a.isEmpty then c :: removeTagsF fuel rest else removeTagsF fuel after
      | none => c :: removeTagsF fuel rest
    else c :: removeTagsF fuel rest

/-- `re.sub(r'<[^>]+>', '', s)` on character lists. -/
def removeTags (l : List Char) : List Char := removeTagsF (l.length + 1) l

theorem removeTagsF_congr :
    ∀ n f₁ f₂ (l : List Char), l.length < f₁ → l.length < f₂ → l.length ≤ n →
      removeTagsF f₁ l = removeTagsF f₂ l := by
  intro n
  induction n with
  | zero =>
    intro f₁ f₂ l h1 h2 hn
    have : l = [] := List.eq_nil_of_length_eq_zero (Nat.le_zero.mp hn)
    subst this
    cases f₁ with
    | zero => omega
    | succ f₁ => cases f₂ with
      | zero => omega
      | succ f₂ => rfl
  | succ n ih =>
    intro f₁ f₂ l h1 h2 hn
    cases f₁ with
    | zero => omega
    | succ f₁ =>
      cases f₂ with
      | zero => omega
      | succ f₂ =>
        cases l with
        | nil => rfl
        | cons c rest =>
          simp only [removeTagsF]
          simp only [List.length_cons] at h1 h2 hn
          have hr : rest.length < f₁ := by omega
          have hr2 : rest.length < f₂ := by omega
          have hrn : rest.length ≤ n := by omega
          by_cases hc : c = '<'
          · rcases hs : splitGt rest with _ | ⟨a, after⟩ <;>
              simp only [hc, if_pos rfl, hs]
            · exact congrArg _ (ih f₁ f₂ rest hr hr2 hrn)
            · have hlen := splitGt_length hs
              by_cases ha : a.isEmpty
              · rw [if_pos ha, if_pos ha]
                exact congrArg _ (ih f₁ f₂ rest hr hr2 hrn)
              · rw [if_neg ha, if_neg ha]
                exact ih f₁ f₂ after (by omega) (by omega) (by omega)
          · simp only [if_neg hc, ih f₁ f₂ rest hr hr2 hrn]

theorem removeTagsF_eq_removeTags (f : Nat) (l : List Char) (h : l.length < f) :
    removeTagsF f l = removeTags l :=
  removeTagsF_congr l.length f (l.length + 1) l h (Nat.lt_succ_self _) le_rfl

@[simp] theorem removeTags_nil : removeTags [] = [] := rfl

theorem removeTags_cons (c : Char) (rest : List Char) :
    removeTags (c :: rest) =
      if c = '<' then
        match splitGt rest with
        | some (a, after) =>
          if a.isEmpty then c :: removeTags rest else removeTags after
        | none => c :: removeTags rest
      else c :: removeTags rest := by
  show removeTagsF (rest.length + 1 + 1) (c :: rest) = _
  rcases hs : splitGt rest with _ | ⟨a, after⟩
  · simp only [removeTagsF, hs, removeTagsF_eq_removeTags _ rest (Nat.lt_succ_self _)]
  · have hl := splitGt_length hs
    simp only [removeTagsF, hs, removeTagsF_eq_removeTags _ rest (Nat.lt_succ_self _),
      removeTagsF_eq_removeTags _ after (by omega : after.length < rest.length + 1)]

/-- The word `script` (the regex alternative `(script|style)` compared
case-insensitively). -/
def scriptWord : List Char := ['s', 'c', 'r', 'i', 'p', 't']

/-- The word `style`. -/
def styleWord : List Char := ['s', 't', 'y', 'l', 'e']

/-- At the text following a `'<'`, decide whether the regex
`<(script|style)...` can match here: the following characters must start,
case-insensitively, with `script` or `style`. -/
def tagWordAt (rest : List Char) : Option (List Char) :=
  if scriptWord.isPrefixOf (lcList rest) then some scriptWord
  else if styleWord.isPrefixOf (lcList rest) then some styleWord
  else none

/-- The closing tag `</tag>` for a tag word. -/
def closingOf (tag : List Char) : List Char := '<' :: '/' :: (tag ++ ['>'])

/-- Drop everything up to and including the first case-insensitive
occurrence of `needle` (used for the lazy `.*?</\1>`, which with
`re.IGNORECASE` stops at the first case-insensitive closing tag); `none`
when there is no occurrence.  Only called with non-empty needles. -/
def dropAfterCI (needle : List Char) : List Char → Option (List Char)
  | [] => none
  | c :: rest =>
    if needle.isPrefixOf (lcList (c :: rest)) then some ((c :: rest).drop needle.length)
    else dropAfterCI needle rest

theorem dropAfterCI_length {needle : List Char} :
    ∀ {l r : List Char}, dropAfterCI needle l = some r → r.length ≤ l.length := by
  intro l
  induction l with
  | nil => intro r h; exact absurd h (by simp [dropAfterCI])
  | cons c rest ih =>
    intro r h
    unfold dropAfterCI at h
    by_cases hp : needle.isPrefixOf (lcList (c :: rest))
    · rw [if_pos hp, Option.some.injEq] at h
      subst h
      simp only [List.length_drop]
      omega
    · rw [if_neg hp] at h
      exact Nat.le_trans (ih h) (Nat.le_succ _)

/-- One step of `re.sub(r'<(script|style).*?>.*?</\1>', '', s,
flags=re.DOTALL | re.IGNORECASE)`, with fuel.  At a `'<'` followed
(case-insensitively) by `script`/`style`, the lazy `.*?>` stops at the first
`'>'` and the lazy `.*?</\1>` stops at the first case-insensitive closing
tag after it; the whole span is dropped.  When no `'>'` or no closing tag
follows, the attempt fails (a closing tag cannot hide after a later `'>'`
because it contains `'>'` itself) and scanning moves on by one character. -/
def stripScriptStyleF : Nat → List Char → List Char
  | 0, l => l
  | _ + 1, [] => []
  | fuel + 1, c :: rest =>
    if c = '<' then
      match tagWordAt rest with
      | some tag =>
        match splitGt rest with
        | some (_, b) =>
          match dropAfterCI (closingOf tag) b with
          | some v => stripScriptStyleF fuel v
          | none => c :: stripScriptStyleF fuel rest
        | none => c :: stripScriptStyleF fuel rest
      | none => c :: stripScriptStyleF fuel rest
    else c :: stripScriptStyleF fuel rest

/-- The script/style-block removal pass of `clean_html`. -/
def stripScriptStyle (l : List Char) : List Char := stripScriptStyleF (l.length + 1) l

theorem stripScriptStyleF_congr :
    ∀ n f₁ f₂ (l : List Char), l.length < f₁ → l.length < f₂ → l.length ≤ n →
      stripScriptStyleF f₁ l = stripScriptStyleF f₂ l := by
  intro n
  induction n with
  | zero =>
    intro f₁ f₂ l h1 h2 hn
    have : l = [] := List.eq_nil_of_length_eq_zero (Nat.le_zero.mp hn)
    subst this
    cases f₁ with
    | zero => omega
    | succ f₁ => cases f₂ with
      | zero => omega
      | succ f₂ => rfl
  | succ n ih =>
    intro f₁ f₂ l h1 h2 hn
    cases f₁ with
    | zero => omega
    | succ f₁ =>
      cases f₂ with
      | zero => omega
      | succ f₂ =>
        cases l with
        | nil => rfl
        | cons c rest =>
          simp only [stripScriptStyleF]
          simp only [List.length_cons] at h1 h2 hn
          have hr : rest.length < f₁ := by omega
          have hr2 : rest.length < f₂ := by omega
          have hrn : rest.length ≤ n := by omega
          by_cases hc : c = '<'
          · rcases ht : tagWordAt rest with _ | tag <;> simp only [hc, if_pos rfl, ht]
            · exact congrArg _ (ih f₁ f₂ rest hr hr2 hrn)
            · rcases hs : splitGt rest with _ | ⟨a, b⟩ <;> simp only [hs]
              · exact congrArg _ (ih f₁ f₂ rest hr hr2 hrn)
              · have hb := splitGt_length hs
                rcases hv : dropAfterCI (closingOf tag) b with _ | v <;> simp only [hv]
                · exact congrArg _ (ih f₁ f₂ rest hr hr2 hrn)
                · have hvl := dropAfterCI_length hv
                  exact ih f₁ f₂ v (by omega) (by omega) (by omega)
          · simp only [if_neg hc, ih f₁ f₂ rest hr hr2 hrn]

theorem stripScriptStyleF_eq (f : Nat) (l : List Char) (h : l.length < f) :
    stripScriptStyleF f l = stripScriptStyle l :=
  stripScriptStyleF_congr l.length f (l.length + 1) l h (Nat.lt_succ_self _) le_rfl

@[simp] theorem stripScriptStyle_nil : stripScriptStyle [] = [] := rfl

theorem stripScriptStyle_cons (c : Char) (rest : List Char) :
    stripScriptStyle (c :: rest) =
      if c = '<' then
        match tagWordAt rest with
        | some tag =>
          match splitGt rest with
          | some (_, b) =>
            match dropAfterCI (closingOf tag) b with
            | some v => stripScriptStyle v
            | none => c :: stripScriptStyle rest
          | none => c :: stripScriptStyle rest
        | none => c :: stripScriptStyle rest
      else c :: stripScriptStyle rest := by
  show stripScriptStyleF (rest.length + 1 + 1) (c :: rest) = _
  rcases ht : tagWordAt rest with _ | tag
  · simp only [stripScriptStyleF, ht, stripScriptStyleF_eq _ rest (Nat.lt_succ_self _)]
  · rcases hs : splitGt rest with _ | ⟨a, b⟩
    · simp only [stripScriptStyleF, ht, hs, stripScriptStyleF_eq _ rest (Nat.lt_succ_self _)]
    · have hb := splitGt_length hs
      rcases hv : dropAfterCI (closingOf tag) b with _ | v
      · simp only [stripScriptStyleF, ht, hs, hv,
          stripScriptStyleF_eq _ rest (Nat.lt_succ_self _)]
      · have hvl := dropAfterCI_length hv
        simp only [stripScriptStyleF, ht, hs, hv,
          stripScriptStyleF_eq _ rest (Nat.lt_succ_self _),
          stripScriptStyleF_eq _ v (by omega : v.length < rest.length + 1)]

/-- The five predefined XML/HTML entities with explicit semicolons.  This
models the part of Python's `html.unescape` exercised by the inputs in this
development; `html.unescape` resolves the full HTML5 named and numeric
entity table, but on strings containing only these entities (or none) the
behaviour coincides. -/
def entityAt : List Char → Option (Char × List Char)
  | 'a' :: 'm' :: 'p' :: ';' :: rest => some ('&', rest)
  | 'l' :: 't' :: ';' :: rest => some ('<', rest)
  | 'g' :: 't' :: ';' :: rest => some ('>', rest)
  | 'q' :: 'u' :: 'o' :: 't' :: ';' :: rest => some ('"', rest)
  | '#' :: '3' :: '9' :: ';' :: rest => some ('\'', rest)
  | _ => none

theorem entityAt_length : ∀ {l : List Char} {ch r}, entityAt l = some (ch, r) →
    r.length < l.length := by
  intro l ch r h
  unfold entityAt at h
  split at h <;> simp_all <;> omega

/-- `html.unescape` (restricted, see `entityAt`), with fuel.  An `'&'` not
introducing a recognised entity is copied unchanged. -/
def unescapeF : Nat → List Char → List Char
  | 0, l => l
  | _ + 1, [] => []
  | fuel + 1, c :: rest =>
    if c = '&' then
      match entityAt rest with
      | some (ch, rest2) => ch :: unescapeF fuel rest2
      | none => c :: unescapeF fuel rest
    else c :: unescapeF fuel rest

/-- `html.unescape` on character lists (restricted entity table). -/
def unescape (l : List Char) : List Char := unescapeF (l.length + 1) l

/-- `clean_html` from `weekly_case_export.py` / `DYN_weekly_case_export.py`
(both files define the identical function): empty input short-circuits to
`""`; otherwise script/style blocks are removed wholesale, then all
remaining tags, then entities are unescaped and the result is stripped. -/
def cleanHtmlL (l : List Char) : List Char :=
  if l.isEmpty then [] else pstrip (unescape (removeTags (stripScriptStyle l)))

/-- `clean_html` on `String`. -/
def clean_html (s : String) : String := ⟨cleanHtmlL s.data⟩

/-- `re.sub(r'\[\[|\]\]', '', v)`: remove every `[[` and `]]`
(leftmost-first, non-overlapping). -/
def stripWikiBrackets : List Char → List Char
  | '[' :: '[' :: rest => stripWikiBrackets rest
  | ']' :: ']' :: rest => stripWikiBrackets rest
  | c :: rest => c :: stripWikiBrackets rest
  | [] => []

theorem removeTagsF_of_no_lt : ∀ (fuel : Nat) (l : List Char), '<' ∉ l →
    removeTagsF fuel l = l := by
  intro fuel
  induction fuel with
  | zero => intro l _; rfl
  | succ fuel ih =>
    intro l h
    cases l with
    | nil => rfl
    | cons c rest =>
      have hc : ¬ c = '<' := fun e => h (e ▸ List.mem_cons_self _ _)
      have hr : '<' ∉ rest := fun m => h (List.mem_cons_of_mem _ m)
      simp only [removeTagsF, if_neg hc, ih rest hr]

theorem removeTags_of_no_lt (l : List Char) (h : '<' ∉ l) : removeTags l = l :=
  removeTagsF_of_no_lt _ l h

theorem stripScriptStyleF_of_no_lt : ∀ (fuel : Nat) (l : List Char), '<' ∉ l →
    stripScriptStyleF fuel l = l := by
  intro fuel
  induction fuel with
  | zero => intro l _; rfl
  | succ fuel ih =>
    intro l h
    cases l with
    | nil => rfl
    | cons c rest =>
      have hc : ¬ c = '<' := fun e => h (e ▸ List.mem_cons_self _ _)
      have hr : '<' ∉ rest := fun m => h (List.mem_cons_of_mem _ m)
      simp only [stripScriptStyleF, if_neg hc, ih rest hr]

theorem stripScriptStyle_of_no_lt (l : List Char) (h : '<' ∉ l) :
    stripScriptStyle l = l :=
  stripScriptStyleF_of_no_lt _ l h

theorem unescapeF_of_no_amp : ∀ (fuel : Nat) (l : List Char), '&' ∉ l →
    unescapeF fuel l = l := by
  intro fuel
  induction fuel with
  | zero => intro l _; rfl
  | succ fuel ih =>
    intro l h
    cases l with
    | nil => rfl
    | cons c rest =>
      have hc : ¬ c = '&' := fun e => h (e ▸ List.mem_cons_self _ _)
      have hr : '&' ∉ rest := fun m => h (List.mem_cons_of_mem _ m)
      simp only [unescapeF, if_neg hc, ih rest hr]

theorem unescape_of_no_amp (l : List Char) (h : '&' ∉ l) : unescape l = l :=
  unescapeF_of_no_amp _ l h

theorem dropWhile_dropWhile (p : Char → Bool) (l : List Char) :
    (l.dropWhile p).dropWhile p = l.dropWhile p := by
  induction l with
  | nil => rfl
  | cons c t ih =>
    by_cases hc : p c
    · simp only [List.dropWhile_cons, hc, if_true, ih]
    · simp only [List.dropWhile_cons, hc, Bool.false_eq_true, if_false]

theorem dropTrailWs_prefix (l : List Char) : dropTrailWs l <+: l := by
  have h : (l.reverse.dropWhile pyWs) <:+ l.reverse := List.dropWhile_suffix _
  have := List.reverse_prefix.mpr h
  simpa [dropTrailWs] using this

theorem dropWhile_dropTrailWs (l : List Char) (h : l.dropWhile pyWs = l) :
    (dropTrailWs l).dropWhile pyWs = dropTrailWs l := by
  rcases h2 : dropTrailWs l with _ | ⟨a, t⟩
  · rfl
  · obtain ⟨s, hs⟩ := dropTrailWs_prefix l
    rw [h2] at hs
    have ha : ¬ pyWs a := by
      intro hw
      rw [← hs, List.cons_append, List.dropWhile_cons, if_pos hw] at h
      have hle : (List.dropWhile pyWs (t ++ s)).length ≤ (t ++ s).length :=
        (List.dropWhile_sublist _).length_le
      rw [h] at hle
      simp at hle
    simp only [List.dropWhile_cons, ha, Bool.false_eq_true, if_false]

theorem dropTrailWs_idem (l : List Char) : dropTrailWs (dropTrailWs l) = dropTrailWs l := by
  simp only [dropTrailWs, List.reverse_reverse, dropWhile_dropWhile]

theorem pstrip_idem (l : List Char) : pstrip (pstrip l) = pstrip l := by
  have h1 : (l.dropWhile pyWs).dropWhile pyWs = l.dropWhile pyWs :=
    dropWhile_dropWhile pyWs l
  have h2 : (dropTrailWs (l.dropWhile pyWs)).dropWhile pyWs
      = dropTrailWs (l.dropWhile pyWs) := dropWhile_dropTrailWs _ h1
  simp only [pstrip, h2, dropTrailWs_idem]

theorem cleanHtmlL_idem_of_clean (l : List Char)
    (h1 : '<' ∉ cleanHtmlL l) (h2 : '&' ∉ cleanHtmlL l) :
    cleanHtmlL (cleanHtmlL l) = cleanHtmlL l := by
  by_cases he : (cleanHtmlL l).isEmpty
  · rw [List.isEmpty_iff] at he
    rw [he]
    rfl
  · have hs : stripScriptStyle (cleanHtmlL l) = cleanHtmlL l :=
      stripScriptStyle_of_no_lt _ h1
    have hrt : removeTags (cleanHtmlL l) = cleanHtmlL l :=
      removeTags_of_no_lt _ h1
    have hu : unescape (cleanHtmlL l) = cleanHtmlL l :=
      unescape_of_no_amp _ h2
    conv_lhs => rw [cleanHtmlL]
    rw [if_neg he, hs, hrt, hu]
    by_cases hle : l.isEmpty
    · rw [cleanHtmlL, if_pos hle] at he
      simp at he
    · conv_lhs => rw [cleanHtmlL, if_neg hle]
      conv_rhs => rw [cleanHtmlL, if_neg hle]
      exact pstrip_idem _

theorem dropWhile_append_cons (p : Char → Bool) (a : List Char) (c : Char) (b : List Char)
    (ha : ∀ x ∈ a, p x = true) (hc : p c = false) :
    (a ++ c :: b).dropWhile p = c :: b := by
  induction a with
  | nil => simp [List.dropWhile_cons, hc]
  | cons x a ih =>
    have hx : p x = true := ha x (List.mem_cons_self _ _)
    have ha' : ∀ y ∈ a, p y = true := fun y hy => ha y (List.mem_cons_of_mem _ hy)
    simp [List.dropWhile_cons, hx, ih ha']

theorem takeWhile_append_cons (p : Char → Bool) (a : List Char) (c : Char) (b : List Char)
    (ha : ∀ x ∈ a, p x = true) (hc : p c = false) :
    (a ++ c :: b).takeWhile p = a := by
  induction a with
  | nil => simp [List.takeWhile_cons, hc]
  | cons x a ih =>
    have hx : p x = true := ha x (List.mem_cons_self _ _)
    have ha' : ∀ y ∈ a, p y = true := fun y hy => ha y (List.mem_cons_of_mem _ hy)
    simp [List.takeWhile_cons, hx, ih ha']

theorem splitGt_append (n b : List Char) (hn : '>' ∉ n) :
    splitGt (n ++ '>' :: b) = some (n, b) := by
  have ha : ∀ x ∈ n, (!(x = '>') : Bool) = true := by
    intro x hx
    simp only [Bool.not_eq_eq_eq_not, Bool.not_true, decide_eq_false_iff_not]
    exact fun e => hn (e ▸ hx)
  have hc : (!(('>' : Char) = '>') : Bool) = false := by simp
  unfold splitGt
  rw [dropWhile_append_cons _ _ _ _ ha hc, takeWhile_append_cons _ _ _ _ ha hc]

theorem removeTags_append_of_no_lt (a r : List Char) (h : '<' ∉ a) :
    removeTags (a ++ r) = a ++ removeTags r := by
  induction a with
  | nil => rfl
  | cons c a ih =>
    have hc : ¬ c = '<' := fun e => h (e ▸ List.mem_cons_self _ _)
    have ha : '<' ∉ a := fun m => h (List.mem_cons_of_mem _ m)
    rw [List.cons_append, removeTags_cons, if_neg hc, ih ha]
    rfl

theorem stripScriptStyle_append_of_no_lt (a r : List Char) (h : '<' ∉ a) :
    stripScriptStyle (a ++ r) = a ++ stripScriptStyle r := by
  induction a with
  | nil => rfl
  | cons c a ih =>
    have hc : ¬ c = '<' := fun e => h (e ▸ List.mem_cons_self _ _)
    have ha : '<' ∉ a := fun m => h (List.mem_cons_of_mem _ m)
    rw [List.cons_append, stripScriptStyle_cons, if_neg hc, ih ha]
    rfl

theorem tagWordAt_cons_of_head (c : Char) (rest : List Char) (h : Char.toLower c ≠ 's') :
    tagWordAt (c :: rest) = none := by
  have hb : (('s' : Char) == Char.toLower c) = false :=
    beq_eq_false_iff_ne.mpr (Ne.symm h)
  simp [tagWordAt, scriptWord, styleWord, lcList, List.isPrefixOf, hb]

theorem removeTags_tag_step (rest a after : List Char)
    (hs : splitGt rest = some (a, after)) (ha : a.isEmpty = false) :
    removeTags ('<' :: rest) = removeTags after := by
  show removeTagsF (rest.length + 1 + 1) ('<' :: rest) = _
  have hl := splitGt_length hs
  simp only [removeTagsF, hs, if_pos rfl, ha, Bool.false_eq_true, if_false, if_true,
    removeTagsF_eq_removeTags _ after (by omega : after.length < rest.length + 1)]

theorem stripScriptStyle_noTag_step (rest : List Char) (ht : tagWordAt rest = none) :
    stripScriptStyle ('<' :: rest) = '<' :: stripScriptStyle rest := by
  show stripScriptStyleF (rest.length + 1 + 1) ('<' :: rest) = _
  simp only [stripScriptStyleF, ht, if_pos rfl, if_true,
    stripScriptStyleF_eq _ rest (Nat.lt_succ_self _)]

/-- Core of the tag-boundary behaviour of `clean_html`: a single
(non-script/style) tag between two pieces of tag-free, entity-free text is
replaced by nothing, so the two pieces are concatenated directly. -/
theorem cleanHtmlL_tag_boundary (a n b : List Char)
    (haLt : '<' ∉ a) (haAmp : '&' ∉ a) (hbLt : '<' ∉ b) (hbAmp : '&' ∉ b)
    (hne : n ≠ []) (hnLt : '<' ∉ n) (hnGt : '>' ∉ n)
    (hhead : ∀ x, n.head? = some x → Char.toLower x ≠ 's') :
    cleanHtmlL (a ++ '<' :: (n ++ '>' :: b)) = pstrip (a ++ b) := by
  have hmidLt : '<' ∉ n ++ '>' :: b := by
    intro hmem
    rcases List.mem_append.mp hmem with h1 | h2
    · exact hnLt h1
    · rcases List.mem_cons.mp h2 with h3 | h4
      · exact absurd h3 (by decide)
      · exact hbLt h4
  have htag : tagWordAt (n ++ '>' :: b) = none := by
    rcases n with _ | ⟨n0, nt⟩
    · exact absurd rfl hne
    have hn0 : Char.toLower n0 ≠ 's' := hhead n0 rfl
    rw [List.cons_append]
    exact tagWordAt_cons_of_head _ _ hn0
  have hnempty : n.isEmpty = false := by
    rcases n with _ | ⟨n0, nt⟩
    · exact absurd rfl hne
    · rfl
  have hsss : stripScriptStyle (a ++ '<' :: (n ++ '>' :: b))
      = a ++ '<' :: (n ++ '>' :: b) := by
    rw [stripScriptStyle_append_of_no_lt _ _ haLt, stripScriptStyle_noTag_step _ htag,
      stripScriptStyle_of_no_lt _ hmidLt]
  have hrt : removeTags (a ++ '<' :: (n ++ '>' :: b)) = a ++ b := by
    rw [removeTags_append_of_no_lt _ _ haLt,
      removeTags_tag_step _ _ _ (splitGt_append _ _ hnGt) hnempty,
      removeTags_of_no_lt _ hbLt]
  have hu : unescape (a ++ b) = a ++ b := by
    refine unescape_of_no_amp _ ?_
    intro hmem
    rcases List.mem_append.mp hmem with h1 | h2
    · exact haAmp h1
    · exact hbAmp h2
  have hempty : ((a ++ '<' :: (n ++ '>' :: b)) : List Char).isEmpty = false := by
    simp
  rw [cleanHtmlL, hempty]
  simp only [Bool.false_eq_true, if_false]
  rw [hsss, hrt, hu]

/-- Attempt to match `\s*([^=|\n]+?)\s*=\s*([^|{}\n]*)` directly after a
`'|'`.  Everything the leading `\s*`, the lazy key group and the trailing
`\s*` consume lies strictly before the first `'='` (none of them can contain
`'='`), so the literal `'='` of a successful match is the first `'='`; the
text before it must be non-empty, contain no `'|'`, and admit a split into
whitespace / non-`'\n'` key kernel / whitespace.  Because the key group and
the two `\s*` both absorb boundary whitespace, the captured key is, after
the `key.strip()` the callers always apply, exactly the whitespace-trimmed
text before the `'='` (empty when that text is all whitespace); the value
returned here is the raw second group: after `'='`, `\s*` greedily skips
whitespace (newlines included) and the group takes every following
character up to the next `'|'`, brace or newline.  Returns the stripped
key, the raw value and the unconsumed remainder (the remainder always
contains every later `'|'`, since no group can consume a `'|'`). -/
def attemptMatch (rest : List Char) : Option (String × String × List Char) :=
  let p := rest.takeWhile (fun c => !(c = '='))
  match rest.dropWhile (fun c => !(c = '=')) with
  | '=' :: afterEq =>
    if p.isEmpty || p.contains '|' then none
    else
      let core := pstrip p
      if (if core.isEmpty then p.all (fun c => c = '\n') else core.contains '\n') then
        none
      else
        let rest3 := afterEq.dropWhile pyWs
        let val := rest3.takeWhile (fun c => !(c = '|' || c = '{' || c = '}' || c = '\n'))
        let rem := rest3.dropWhile (fun c => !(c = '|' || c = '{' || c = '}' || c = '\n'))
        some (⟨core⟩, ⟨val⟩, rem)
  | _ => none

theorem attemptMatch_length {rest : List Char} {k v : String} {rem : List Char}
    (h : attemptMatch rest = some (k, v, rem)) : rem.length < rest.length := by
  unfold attemptMatch at h
  rcases hd : rest.dropWhile (fun c => !(c = '=')) with _ | ⟨c0, afterEq⟩ <;>
    rw [hd] at h
  · exact absurd h (by simp)
  · have hsub : List.Sublist (rest.dropWhile (fun c => !(c = '='))) rest :=
      List.dropWhile_sublist _
    have hlen : (c0 :: afterEq).length ≤ rest.length := hd ▸ hsub.length_le
    by_cases hc : c0 = '='
    · subst hc
      have hfin : ((afterEq.dropWhile pyWs).dropWhile
          (fun c => !(c = '|' || c = '{' || c = '}' || c = '\n'))).length < rest.length := by
        have h1 : ((afterEq.dropWhile pyWs).dropWhile
            (fun c => !(c = '|' || c = '{' || c = '}' || c = '\n'))).length ≤
            (afterEq.dropWhile pyWs).length :=
          (List.dropWhile_sublist _).length_le
        have h2 : (afterEq.dropWhile pyWs).length ≤ afterEq.length :=
          (List.dropWhile_sublist _).length_le
        simp only [List.length_cons] at hlen
        omega
      simp only at h
      by_cases h1 : ((rest.takeWhile (fun c => !(c = '='))).isEmpty ||
          (rest.takeWhile (fun c => !(c = '='))).contains '|') = true
      · rw [if_pos h1] at h
        exact Option.noConfusion h
      · rw [if_neg h1] at h
        by_cases h2 : (if (pstrip (rest.takeWhile (fun c => !(c = '=')))).isEmpty then
            (rest.takeWhile (fun c => !(c = '='))).all (fun c => c = '\n')
          else (pstrip (rest.takeWhile (fun c => !(c = '=')))).contains '\n') = true
        · rw [if_pos h2] at h
          exact Option.noConfusion h
        · rw [if_neg h2] at h
          have h' := congrArg (fun t : String × String × List Char => t.2.2)
            (Option.some.inj h)
          simp only at h'
          rw [← h']
          exact hfin
    · exact absurd h (by simp [hc])

/-- `re.findall(r'\|\s*([^=|\n]+?)\s*=\s*([^|{}\n]*)', wikitext)` (with the
`key.strip()` from the consuming loops already applied to the key), with
fuel.  The scanner attempts a match at every `'|'`; a successful match
resumes after its value (which cannot have consumed any later `'|'`), a
failed attempt resumes at the next character. -/
def findPairsF : Nat → List Char → List (String × String)
  | 0, _ => []
  | _ + 1, [] => []
  | fuel + 1, c :: rest =>
    if c = '|' then
      match attemptMatch rest with
      | some (k, v, rem) => (k, v) :: findPairsF fuel rem
      | none => findPairsF fuel rest
    else findPairsF fuel rest

/-- The key/value pairs extracted from a wikitext page. -/
def findPairs (s : String) : List (String × String) :=
  findPairsF (s.data.length + 1) s.data

/-- `re.sub(r'\[\[|\]\]', '', val.strip())`: the value cleaning applied
inside both consuming loops. -/
def cleanVal (v : String) : String := ⟨stripWikiBrackets (pstrip v.data)⟩

/-- Python's `in` operator on strings (substring test). -/
def hasSubL (needle : List Char) : List Char → Bool
  | [] => needle.isEmpty
  | c :: rest => needle.isPrefixOf (c :: rest) || hasSubL needle rest

/-- `needle in hay` on `String`. -/
def hasSub (needle hay : String) : Bool := hasSubL needle.data hay.data

/-- The mutable record built by the field loop of
`get_transformed_page_data` (`DYN_weekly_case_export.py`): the named fields
plus the `temp_articles` accumulator. -/
structure CaseState where
  id : String
  article_number : String
  type : String
  jurisdiction : String
  date : String
  fine : String
  currency : String
  temp_articles : List String
deriving Repr, DecidableEq

/-- All fields start empty. -/
def initCaseState : CaseState := ⟨"", "", "", "", "", "", "", []⟩

/-- One iteration of the field loop of `get_transformed_page_data`: `v` is
the already-cleaned value (`re.sub(r'\[\[|\]\]', '', val.strip())`); empty
values are skipped, the `elif` chain assigns the known keys, and
`GDPR Article*` keys without a `Link` sub-variant accumulate into
`temp_articles`. -/
def applyPair (t : CaseState) (k v : String) : CaseState :=
  if v = "" then t
  else if k = "ECLI" then { t with article_number := v, id := v }
  else if k = "Type" then { t with type := v }
  else if k = "Jurisdiction" then { t with jurisdiction := v }
  else if k = "Fine" then { t with fine := v }
  else if k = "Currency" then { t with currency := v }
  else if k = "Date Decided" then { t with date := v }
  else if "GDPR Article".data.isPrefixOf k.data && !(hasSub "Link" k) then
    { t with temp_articles := t.temp_articles ++ [v] }
  else t

/-- The field loop of `get_transformed_page_data` over all parsed pairs. -/
def caseStateOf (wikitext : String) : CaseState :=
  (findPairs wikitext).foldl (fun t kv => applyPair t kv.1 (cleanVal kv.2)) initCaseState

/-- `transformed["gdpr_articles"] = list(set(temp_articles))`: Python's
`set` collapses duplicates and forgets order, so the field is a `Finset`. -/
def gdprArticlesOf (wikitext : String) : Finset String :=
  (caseStateOf wikitext).temp_articles.toFinset

/-- One entry of the section list returned by the MediaWiki
`prop=sections` call: its `index` and heading `line`. -/
structure PageSection where
  index : String
  line : String
deriving Repr, DecidableEq

/-- `next((s.get("index") for s in sections if "English Summary" in
s.get("line", "")), None)`. -/
def summaryIdx (sections : List PageSection) : Option String :=
  (sections.find? (fun s => hasSub "English Summary" s.line)).map (fun s => s.index)

/-- The `text` field of `get_transformed_page_data`: set only when a
summary section index was found and truthy (`if summary_idx:`), in which
case the fetched section text is cleaned; otherwise it stays `""`. -/
def summaryText (sections : List PageSection) (fetchSectionText : String → String) : String :=
  match summaryIdx sections with
  | some i => if i = "" then "" else clean_html (fetchSectionText i)
  | none => ""

/-- Base URL prefix used by both exporters. -/
def baseUrl : String := "https://gdprhub.eu/index.php?title="

/-- `title.replace(' ', '_')`. -/
def spaceToUnderscore (t : String) : String :=
  ⟨t.data.map (fun c => if c = ' ' then '_' else c)⟩

/-- The case record produced by `get_transformed_page_data`. -/
structure CaseRecord where
  id : String
  article_number : String
  title : String
  url : String
  type : String
  jurisdiction : String
  date : String
  fine : String
  currency : String
  gdpr_articles : Finset String
  text : String
deriving DecidableEq

/-- `get_transformed_page_data` (`DYN_weekly_case_export.py`), happy path
of the `try` block.  The network calls are parameters: `sections` is the
parsed section list, `fetchSectionText` yields a section's rendered text,
`wikitext` is the page wikitext. -/
def getTransformedPageData (title : String) (sections : List PageSection)
    (fetchSectionText : String → String) (wikitext : String) : CaseRecord :=
  let st := caseStateOf wikitext
  { id := st.id
    article_number := st.article_number
    title := title
    url := baseUrl ++ spaceToUnderscore title
    type := st.type
    jurisdiction := st.jurisdiction
    date := st.date
    fine := st.fine
    currency := st.currency
    gdpr_articles := st.temp_articles.toFinset
    text := summaryText sections fetchSectionText }

/-- The `Summary` value of `get_page_data` (`weekly_case_export.py`): the
cleaned section text when a summary section was found, and the sentinel
string `"No Summary found"` otherwise. -/
def summaryValue (sections : List PageSection) (fetchSectionText : String → String) : String :=
  match summaryIdx sections with
  | some i => if i = "" then "No Summary found" else clean_html (fetchSectionText i)
  | none => "No Summary found"

/-- Python dict assignment `d[k] = v` on an association list (overwrite the
existing key in place or append). -/
def dictSet (d : List (String × String)) (k v : String) : List (String × String) :=
  match d with
  | [] => [(k, v)]
  | (k', v') :: rest => if k' = k then (k', v) :: rest else (k', v') :: dictSet rest k v

/-- `key.replace("_", " ")`. -/
def underscoreToSpace (s : String) : String :=
  ⟨s.data.map (fun c => if c = '_' then ' ' else c)⟩

/-- `get_page_data` (`weekly_case_export.py`), happy path: the returned
dict holds the page title, the `Summary` value, and one entry per parsed
non-empty key/value pair (keys normalised by `strip` and `_`→space;
repeated keys overwrite). -/
def getPageData (title : String) (sections : List PageSection)
    (fetchSectionText : String → String) (wikitext : String) : List (String × String) :=
  let base := dictSet [("Page Title", title)] "Summary" (summaryValue sections fetchSectionText)
  (findPairs wikitext).foldl
    (fun d kv =>
      let k := underscoreToSpace kv.1
      let v := cleanVal kv.2
      if k ≠ "" ∧ v ≠ "" then dictSet d k v else d) base

/-- `looks_like_gdpr_article` (`01_get_knowledge.py`): both `"article"` and
`"gdpr"` occur in the lower-cased title. -/
def looksLikeGdprArticle (title : String) : Bool :=
  hasSub "article" ⟨lcList title.data⟩ && hasSub "gdpr" ⟨lcList title.data⟩

/-- Attempt of `re.search(r"article\s+(\d+)", title, flags=re.I)` at the
current position: the next 7 characters spell `article` case-insensitively,
then at least one whitespace character, then a maximal non-empty digit run,
which is the captured group. -/
def matchArticleAt (l : List Char) : Option (List Char) :=
  if lcList (l.take 7) = ['a', 'r', 't', 'i', 'c', 'l', 'e'] then
    let r := l.drop 7
    if (r.takeWhile pyWs).isEmpty then none
    else
      let ds := (r.dropWhile pyWs).takeWhile Char.isDigit
      if ds.isEmpty then none else some ds
  else none

/-- `re.search` scans left to right and returns the first position where
the pattern matches. -/
def searchArticleNum : List Char → Option (List Char)
  | [] => none
  | c :: rest =>
    match matchArticleAt (c :: rest) with
    | some ds => some ds
    | none => searchArticleNum rest

/-- The `article_number` extracted from a title by `build_article_docs`
(`None` encoded as `none`). -/
def findArticleNumber (title : String) : Option String :=
  (searchArticleNum title.data).map (fun l => ⟨l⟩)

/-- A section produced by `extract_sections_from_html`. -/
structure HtmlSection where
  section_title : String
  text : String
deriving Repr, DecidableEq

/-- The document dict built by `build_article_docs`. -/
structure ArticleDoc where
  id : String
  type : String
  title : String
  article_number : String
  url : String
  text : String
deriving Repr, DecidableEq

/-- `build_article_docs` (`01_get_knowledge.py`).  The `sections` parameter
is the output of `extract_sections_from_html(html)` (BeautifulSoup parsing
of the externally fetched HTML).  Python evaluates
`"article" + article_number` where `article_number` is `None` whenever the
title regex found no match; that raises an uncaught `TypeError`, embedded
here as `Except.error` carrying the interpreter's message. -/
def buildArticleDocs (title : String) (sections : List HtmlSection) :
    Except String (List ArticleDoc) :=
  let full_text := String.intercalate " "
    ((sections.filterMap (fun s => if s.text = "" then none else some s.text)))
  let url := baseUrl ++ spaceToUnderscore title
  match findArticleNumber title with
  | none => Except.error "TypeError: can only concatenate str (not \"NoneType\") to str"
  | some n =>
    Except.ok [{ id := "article" ++ n, type := "article", title := title,
                 article_number := n, url := url, text := full_text }]

/-- Chunk metadata as built by `load_and_process_json`
(`DYN_weekly_vector_ingestion.py`).  Every value is the string read from
the JSON record via `item.get(key, "")`; `gdpr_articles` is kept in its
serialised form, which no claim inspects. -/
structure ChunkMeta where
  id : String
  title : String
  article_number : String
  type : String
  jurisdiction : String
  url : String
  date : String
  fine : String
  currency : String
  gdpr_articles : String
deriving Repr, DecidableEq

/-- A LangChain `Document`: page content plus metadata. -/
structure Chunk where
  page_content : String
  metadata : ChunkMeta
deriving Repr, DecidableEq

/-- A parsed JSON object with string fields, as an association list. -/
abbrev JsonObj := List (String × String)

/-- `item.get(k, "")`. -/
def jget (item : JsonObj) (k : String) : String :=
  ((item.find? (fun kv => kv.1 == k)).map (fun kv => kv.2)).getD ""

/-- The `content` f-string of `load_and_process_json`. -/
def mkContent (item : JsonObj) : String :=
  "Title: " ++ jget item "title" ++ "\nID: " ++ jget item "id" ++
  "\nArticle Number: " ++ jget item "article_number" ++ "\nText: " ++ jget item "text"

/-- The `metadata` dict of `load_and_process_json`.  Note that the `date`
entry is read from the JSON key `"data"`, exactly as in the source
(`"date": item.get("data", "")`). -/
def mkMetadata (item : JsonObj) : ChunkMeta :=
  { id := jget item "id"
    title := jget item "title"
    article_number := jget item "article_number"
    type := jget item "type"
    jurisdiction := jget item "jurisdiction"
    url := jget item "url"
    date := jget item "data"
    fine := jget item "fine"
    currency := jget item "currency"
    gdpr_articles := jget item "gdpr_articles" }

/-- `load_and_process_json`, with the external
`RecursiveCharacterTextSplitter.split_documents` abstracted as the
`splitText` parameter: the splitter cuts each document's text into pieces
and every piece inherits the document's metadata unchanged (spec §4.5). -/
def loadAndProcessJson (splitText : String → List String) (data : List JsonObj) : List Chunk :=
  (data.map (fun item => (mkContent item, mkMetadata item))).flatMap
    (fun d => (splitText d.1).map (fun piece => { page_content := piece, metadata := d.2 }))

/-- First comprehension of `create_or_update_vector_store`:
`[doc.metadata.get("id") for doc in chunks if doc.metadata.get("id")]`
(a `""` id is falsy and is skipped). -/
def idsToRemoveRaw (chunks : List Chunk) : List String :=
  chunks.filterMap (fun d => if d.metadata.id = "" then none else some d.metadata.id)

/-- Second comprehension: `ids_to_remove = [i for i in ids_to_remove if i]`. -/
def idsToRemove (chunks : List Chunk) : List String :=
  (idsToRemoveRaw chunks).filter (fun i => !(i = ""))

/-- Modelled from the spec: the persistent vector index (spec §6) is an
external collaborator (`langchain` Chroma).  It is modelled as the list of
stored chunks; `deleteByIds` removes every entry whose document id is in
the given list, `add_documents` appends, and `persist()` only makes the
state durable without changing it. -/
def chromaDelete (store : List Chunk) (ids : List String) : List Chunk :=
  store.filter (fun c => !(ids.contains c.metadata.id))

/-- `create_or_update_vector_store` (`DYN_weekly_vector_ingestion.py`).
`existing = some store` models `os.path.exists(persist_directory)`: the
batch ids are deleted (`if ids_to_remove:` guards the call) and the new
chunks appended; otherwise the store is created from the chunks alone. -/
def createOrUpdateVectorStore (chunks : List Chunk) (existing : Option (List Chunk)) :
    List Chunk :=
  match existing with
  | some store =>
    (if (idsToRemove chunks).isEmpty then store
     else chromaDelete store (idsToRemove chunks)) ++ chunks
  | none => chunks

/-- One value of the `articles_dict` in `rag_with_reasoner`
(`03_smolagent_rag.py`). -/
structure GroupInfo where
  title : String
  id : String
  url : String
  chunks : List String
deriving Repr, DecidableEq

/-- Processing one retrieved chunk into the dict: a missing key appends a
fresh entry (the dict keeps insertion order) whose title / id / url come
from this first chunk; an existing key only appends the page content to
the group's chunk list. -/
def dictInsert (dict : List (String × GroupInfo)) (key : String) (doc : Chunk) :
    List (String × GroupInfo) :=
  match dict with
  | [] => [(key, { title := doc.metadata.title, id := doc.metadata.id,
                   url := doc.metadata.url, chunks := [doc.page_content] })]
  | (k, info) :: rest =>
    if k = key then (k, { info with chunks := info.chunks ++ [doc.page_content] }) :: rest
    else (k, info) :: dictInsert rest key doc

/-- The grouping loop of `rag_with_reasoner`: chunks are grouped by the
`article_number` metadata field (`metadata.get('article_number',
'Unknown')`; the embedded metadata record is total so the default is never
taken). -/
def articlesDict (docs : List Chunk) : List (String × GroupInfo) :=
  docs.foldl (fun dict doc => dictInsert dict doc.metadata.article_number doc) []

/-- The `[...continued...]` separator between the (at most two) chunks of
one group. -/
def contMarker : String := "\n\n[...continued...]\n\n"

/-- The data of one `context_parts` entry together with its parallel
`article_list` entry. -/
structure ContextBlock where
  num : String
  title : String
  id : String
  url : String
  content : String
deriving Repr, DecidableEq

/-- One loop iteration over `sorted(articles_dict.items())`: the group
content joins `article_info['chunks'][:2]` with the continued marker. -/
def buildBlock (k : String) (info : GroupInfo) : ContextBlock :=
  { num := k, title := info.title, id := info.id, url := info.url,
    content := String.intercalate contMarker (info.chunks.take 2) }

/-- `sorted(articles_dict.items())`: Python sorts the pairs by key (keys
are distinct, so the values never take part in the comparison). -/
def sortedDict (docs : List Chunk) : List (String × GroupInfo) :=
  (articlesDict docs).mergeSort (fun a b => decide (a.1 ≤ b.1))

/-- All context blocks, in sorted-key order. -/
def contextBlocks (docs : List Chunk) : List ContextBlock :=
  (sortedDict docs).map (fun p => buildBlock p.1 p.2)

/-- The retrieval/aggregation phase of `rag_with_reasoner`: `docs` is the
result of the external `vectordb.similarity_search(user_query, k=5)`, and
the two Python `assert` statements surface as `Except.error` carrying
their messages. -/
def ragRetrievalContext (user_query : String) (docs : List Chunk) :
    Except String (List ContextBlock) :=
  if docs.length = 0 then
    Except.error ("No documents found for query: " ++ user_query)
  else if (articlesDict docs).length = 0 then
    Except.error ("No articles found for query: " ++ user_query)
  else Except.ok (contextBlocks docs)

/-- C3 counterexample: `clean_html` is not idempotent.  On
`"&lt;b&gt;hi&lt;/b&gt;"` one application only unescapes the entities
(there are no literal tags), yielding `"<b>hi</b>"`; a second application
then strips the tags that the unescaping revealed, yielding `"hi"`. -/
theorem clean_html_not_idempotent :
    clean_html (clean_html "&lt;b&gt;hi&lt;/b&gt;")
      ≠ clean_html "&lt;b&gt;hi&lt;/b&gt;"
    ∧ clean_html "&lt;b&gt;hi&lt;/b&gt;" = "<b>hi</b>"
    ∧ clean_html (clean_html "&lt;b&gt;hi&lt;/b&gt;") = "hi" :=
  ⟨by decide, by decide, by decide⟩

/-- C3 (amended): `clean_html` is idempotent on every input whose cleaned
output contains neither `'<'` nor `'&'`; in general a second application
can unescape further entities and strip the tags they reveal, because
entity unescaping runs after tag removal. -/
theorem clean_html_idempotent_on_clean (s : String)
    (h1 : '<' ∉ (clean_html s).data) (h2 : '&' ∉ (clean_html s).data) :
    clean_html (clean_html s) = clean_html s :=
  congrArg String.mk (cleanHtmlL_idem_of_clean s.data h1 h2)

/-- C3 witness. -/
theorem clean_html_idempotent_on_clean_witness :
    clean_html (clean_html "  a b  ") = clean_html "  a b  " :=
  clean_html_idempotent_on_clean "  a b  " (by decide) (by decide)

/-- C7 counterexample: the tag pass replaces a tag with the empty string,
not a single space, so words separated only by a tag are glued together. -/
theorem clean_html_no_space_at_tag :
    clean_html "foo<br>bar" ≠ "foo bar" ∧ clean_html "foo<br>bar" = "foobar" :=
  ⟨by decide, by decide⟩

/-- C7 (amended): stripping removes every tag but collapses the tag
boundary to the empty string, not to a single space: for tag-free,
entity-free `a` and `b` separated only by a tag `<n>` (any non-empty tag
name without angle brackets that does not open a script/style block), the
cleaned result is exactly the stripped direct concatenation of `a` and
`b`, with no separator inserted. -/
theorem clean_html_tag_collapses_to_empty (a n b : String)
    (haLt : '<' ∉ a.data) (haAmp : '&' ∉ a.data)
    (hbLt : '<' ∉ b.data) (hbAmp : '&' ∉ b.data)
    (hne : n.data ≠ []) (hnLt : '<' ∉ n.data) (hnGt : '>' ∉ n.data)
    (hhead : ∀ x, n.data.head? = some x → Char.toLower x ≠ 's') :
    clean_html (a ++ "<" ++ n ++ ">" ++ b) = pstripS (a ++ b) := by
  have hd : (a ++ "<" ++ n ++ ">" ++ b).data
      = a.data ++ '<' :: (n.data ++ '>' :: b.data) := by
    simp [String.data_append]
  show (⟨cleanHtmlL (a ++ "<" ++ n ++ ">" ++ b).data⟩ : String) = _
  rw [hd, cleanHtmlL_tag_boundary a.data n.data b.data haLt haAmp hbLt hbAmp
    hne hnLt hnGt hhead]
  show (⟨pstrip (a.data ++ b.data)⟩ : String) = (⟨pstrip (a ++ b).data⟩ : String)
  rw [String.data_append]

/-- C7 witness. -/
theorem clean_html_tag_collapses_to_empty_witness :
    clean_html ("foo" ++ "<" ++ "br" ++ ">" ++ "bar") = pstripS ("foo" ++ "bar") :=
  clean_html_tag_collapses_to_empty "foo" "br" "bar" (by decide) (by decide)
    (by decide) (by decide) (by decide) (by decide) (by decide)
    (by intro x hx; simp only [List.head?] at hx; cases hx; decide)

/-- C5 counterexample: on a page whose only heading is `"Facts"`, the
legacy exporter `get_page_data` stores the sentinel `"No Summary found"`
under `Summary`, not the empty string. -/
theorem get_page_data_summary_sentinel :
    (getPageData "T" [⟨"1", "Facts"⟩] (fun _ => "") "").lookup "Summary"
      = some "No Summary found"
    ∧ (getPageData "T" [⟨"1", "Facts"⟩] (fun _ => "") "").lookup "Summary"
      ≠ some "" :=
  ⟨by decide, by decide⟩

/-- C5 (amended): when no heading contains `"English Summary"`, the DYN
exporter `get_transformed_page_data` leaves the record's `text` field as
the empty string and both functions return normally (no error path); the
legacy exporter `get_page_data`, however, stores the sentinel string
`"No Summary found"` in the `Summary` field instead of the empty string. -/
theorem no_summary_section_fields (title wikitext : String)
    (sections : List PageSection) (fetch : String → String)
    (h : ∀ s ∈ sections, hasSub "English Summary" s.line = false) :
    (getTransformedPageData title sections fetch wikitext).text = ""
    ∧ summaryValue sections fetch = "No Summary found" := by
  have hidx : summaryIdx sections = none := by
    unfold summaryIdx
    rw [List.find?_eq_none.mpr]
    · rfl
    · intro s hs
      rw [h s hs]
      exact Bool.false_ne_true
  constructor
  · show summaryText sections fetch = ""
    rw [summaryText, hidx]
  · rw [summaryValue, hidx]

/-- C5 witness. -/
theorem no_summary_section_fields_witness :
    (getTransformedPageData "T" [⟨"1", "Facts"⟩] (fun _ => "") "").text = ""
    ∧ summaryValue [⟨"1", "Facts"⟩] (fun _ => "") = "No Summary found" :=
  no_summary_section_fields "T" "" [⟨"1", "Facts"⟩] (fun _ => "") (by decide)

/-- C6: `build_article_docs` aborts the whole run on a title without a
digit sequence.  The title `"Article One GDPR"` passes the
`looks_like_gdpr_article` filter used by `main`, yet the id derivation
finds no digits, `article_number` stays `None`, and `"article" +
article_number` raises an uncaught `TypeError` (embedded as
`Except.error`), so the failure is fatal to the run rather than confined
to the record.  On a title with digits the id is `"article" + digits` as
the claim describes. -/
theorem build_article_docs_type_error :
    looksLikeGdprArticle "Article One GDPR" = true
    ∧ buildArticleDocs "Article One GDPR" []
        = Except.error "TypeError: can only concatenate str (not \"NoneType\") to str"
    ∧ buildArticleDocs "Article 17 GDPR" []
        = Except.ok [{ id := "article17", type := "article",
                       title := "Article 17 GDPR", article_number := "17",
                       url := "https://gdprhub.eu/index.php?title=Article_17_GDPR",
                       text := "" }] :=
  ⟨by decide, by rfl, by rfl⟩

theorem applyPair_temp (t : CaseState) (k v : String) :
    (applyPair t k v).temp_articles
      = t.temp_articles ++
        (if (!(v == "")) && ("GDPR Article".data.isPrefixOf k.data && !(hasSub "Link" k))
         then [v] else []) := by
  by_cases hv : v = ""
  · subst hv
    simp [applyPair]
  · have hv' : (!(v == "")) = true := by simp [hv]
    rw [applyPair, if_neg hv, hv', Bool.true_and]
    by_cases h1 : k = "ECLI"
    · subst h1
      rw [if_pos rfl]
      have hp : ("GDPR Article".data.isPrefixOf "ECLI".data) = false := by decide
      simp [hp]
    · rw [if_neg h1]
      by_cases h2 : k = "Type"
      · subst h2
        rw [if_pos rfl]
        have hp : ("GDPR Article".data.isPrefixOf "Type".data) = false := by decide
        simp [hp]
      · rw [if_neg h2]
        by_cases h3 : k = "Jurisdiction"
        · subst h3
          rw [if_pos rfl]
          have hp : ("GDPR Article".data.isPrefixOf "Jurisdiction".data) = false := by
            decide
          simp [hp]
        · rw [if_neg h3]
          by_cases h4 : k = "Fine"
          · subst h4
            rw [if_pos rfl]
            have hp : ("GDPR Article".data.isPrefixOf "Fine".data) = false := by decide
            simp [hp]
          · rw [if_neg h4]
            by_cases h5 : k = "Currency"
            · subst h5
              rw [if_pos rfl]
              have hp : ("GDPR Article".data.isPrefixOf "Currency".data) = false := by
                decide
              simp [hp]
            · rw [if_neg h5]
              by_cases h6 : k = "Date Decided"
              · subst h6
                rw [if_pos rfl]
                have hp : ("GDPR Article".data.isPrefixOf "Date Decided".data) = false := by
                  decide
                simp [hp]
              · rw [if_neg h6]
                by_cases h7 : ("GDPR Article".data.isPrefixOf k.data
                    && !(hasSub "Link" k)) = true
                · rw [if_pos h7, h7, if_pos rfl]
                · rw [if_neg h7]
                  have h7' : ("GDPR Article".data.isPrefixOf k.data
                      && !(hasSub "Link" k)) = false := by simpa using h7
                  rw [h7']
                  simp

theorem foldPairs_temp (pairs : List (String × String)) (t : CaseState) :
    (pairs.foldl (fun t kv => applyPair t kv.1 (cleanVal kv.2)) t).temp_articles
      = t.temp_articles ++ pairs.filterMap (fun kv =>
          if (!(cleanVal kv.2 == "")) && ("GDPR Article".data.isPrefixOf kv.1.data
              && !(hasSub "Link" kv.1))
          then some (cleanVal kv.2) else none) := by
  induction pairs generalizing t with
  | nil => simp
  | cons kv rest ih =>
    rw [List.foldl_cons, ih, applyPair_temp, List.filterMap_cons]
    by_cases hc : ((!(cleanVal kv.2 == "")) && ("GDPR Article".data.isPrefixOf kv.1.data
        && !(hasSub "Link" kv.1))) = true
    · rw [if_pos hc, if_pos hc]
      simp
    · have hc' : ((!(cleanVal kv.2 == "")) && ("GDPR Article".data.isPrefixOf kv.1.data
          && !(hasSub "Link" kv.1))) = false := by simpa using hc
      rw [hc', if_neg (by simp), if_neg (by simp)]
      simp

/-- C9: values of keys starting with `GDPR Article` (excluding the `Link`
sub-variants) with non-empty cleaned values are accumulated into a
duplicate-free, order-independent set; in particular the markup
`|GDPR Article 1=5` + `|GDPR Article 2=5` yields the article set
containing `"5"` exactly once. -/
theorem gdpr_articles_dedup :
    (∀ (w x : String),
      x ∈ gdprArticlesOf w ↔ ∃ kv ∈ findPairs w,
        "GDPR Article".data.isPrefixOf kv.1.data = true
        ∧ hasSub "Link" kv.1 = false ∧ cleanVal kv.2 ≠ "" ∧ cleanVal kv.2 = x)
    ∧ gdprArticlesOf "|GDPR Article 1=5\n|GDPR Article 2=5" = {"5"} := by
  constructor
  · intro w x
    rw [gdprArticlesOf, List.mem_toFinset, caseStateOf, foldPairs_temp]
    show x ∈ [] ++ _ ↔ _
    rw [List.nil_append, List.mem_filterMap]
    constructor
    · rintro ⟨kv, hkv, hf⟩
      by_cases hc : ((!(cleanVal kv.2 == "")) && ("GDPR Article".data.isPrefixOf kv.1.data
          && !(hasSub "Link" kv.1))) = true
      · rw [if_pos hc] at hf
        rw [Bool.and_eq_true, Bool.and_eq_true, Bool.not_eq_eq_eq_not, Bool.not_true,
          Bool.not_eq_eq_eq_not, Bool.not_true, beq_eq_false_iff_ne] at hc
        exact ⟨kv, hkv, hc.2.1, hc.2.2, hc.1, Option.some.inj hf⟩
      · rw [if_neg hc] at hf
        exact absurd hf (by simp)
    · rintro ⟨kv, hkv, hpre, hlink, hne, hx⟩
      refine ⟨kv, hkv, ?_⟩
      have hc : ((!(cleanVal kv.2 == "")) && ("GDPR Article".data.isPrefixOf kv.1.data
          && !(hasSub "Link" kv.1))) = true := by
        rw [Bool.and_eq_true, Bool.and_eq_true, Bool.not_eq_eq_eq_not, Bool.not_true,
          Bool.not_eq_eq_eq_not, Bool.not_true, beq_eq_false_iff_ne]
        exact ⟨hne, hpre, hlink⟩
      rw [if_pos hc, hx]
  · have h : (caseStateOf "|GDPR Article 1=5\n|GDPR Article 2=5").temp_articles
        = ["5", "5"] := by decide
    rw [gdprArticlesOf, h]
    simp

/-- C9 witness. -/
theorem gdpr_articles_dedup_witness :
    "5" ∈ gdprArticlesOf "|GDPR Article 1=5\n|GDPR Article 2=5" := by
  rw [gdpr_articles_dedup.2]
  decide

theorem mem_idsToRemove (chunks : List Chunk) (i : String) :
    i ∈ idsToRemove chunks ↔ (∃ c ∈ chunks, c.metadata.id = i) ∧ i ≠ "" := by
  unfold idsToRemove idsToRemoveRaw
  rw [List.mem_filter, List.mem_filterMap]
  constructor
  · rintro ⟨⟨c, hc, hf⟩, hi⟩
    by_cases hid : c.metadata.id = ""
    · rw [if_pos hid] at hf
      exact absurd hf (by simp)
    · rw [if_neg hid] at hf
      exact ⟨⟨c, hc, Option.some.inj hf⟩, by simpa using hi⟩
  · rintro ⟨⟨c, hc, hid⟩, hi⟩
    subst hid
    exact ⟨⟨c, hc, by rw [if_neg hi]⟩, by simpa using hi⟩

theorem chromaDelete_filter_eq_nil (store : List Chunk) (ids : List String)
    (X : String) (hX : X ∈ ids) :
    (chromaDelete store ids).filter (fun c => c.metadata.id == X) = [] := by
  rw [List.filter_eq_nil_iff]
  intro c hc hcX
  have hcid : c.metadata.id = X := by simpa using hcX
  rw [chromaDelete, List.mem_filter] at hc
  rw [hcid] at hc
  have : ids.contains X = true := List.contains_iff_exists_mem_beq.mpr ⟨X, hX, by simp⟩
  rw [this] at hc
  exact absurd hc.2 (by simp)

theorem chromaDelete_filter_unchanged (store : List Chunk) (ids : List String)
    (Y : String) (hY : Y ∉ ids) :
    (chromaDelete store ids).filter (fun c => c.metadata.id == Y)
      = store.filter (fun c => c.metadata.id == Y) := by
  rw [chromaDelete, List.filter_filter]
  refine List.filter_congr ?_
  intro c _
  by_cases hc : c.metadata.id = Y
  · rw [hc]
    have : ids.contains Y = false := by
      rcases h : ids.contains Y with _ | _
      · rfl
      · exact absurd (List.contains_iff_exists_mem_beq.mp h) (by
          rintro ⟨y, hy, hbeq⟩
          have : Y = y := by simpa using hbeq
          exact hY (this ▸ hy))
    simp only [this, Bool.not_false, Bool.and_true]
  · have : (c.metadata.id == Y) = false := by simpa using hc
    simp [this]

theorem filter_id_eq_nil_of_not_mem (chunks : List Chunk) (Y : String)
    (h : ∀ c ∈ chunks, c.metadata.id ≠ Y) :
    chunks.filter (fun c => c.metadata.id == Y) = [] := by
  rw [List.filter_eq_nil_iff]
  intro c hc hcY
  exact h c hc (by simpa using hcY)

theorem chromaDelete_all_of_ids (chunks : List Chunk) (ids : List String)
    (h : ∀ c ∈ chunks, c.metadata.id ∈ ids) :
    chromaDelete chunks ids = [] := by
  rw [chromaDelete, List.filter_eq_nil_iff]
  intro c hc hkeep
  have : ids.contains c.metadata.id = true :=
    List.contains_iff_exists_mem_beq.mpr ⟨c.metadata.id, h c hc, by simp⟩
  rw [this] at hkeep
  exact absurd hkeep (by simp)

/-- C1: upsert correctness of `create_or_update_vector_store` against the
spec-modelled index (delete by document id, then append).  For every
existing store and batch: (1) for a non-empty id `X` carried by the batch,
the reconciled store's chunks with id `X` are exactly the batch's chunks
with id `X`; (2) ids not carried by the batch keep exactly their previous
entries; (3) when every chunk of the batch carries a non-empty id,
reconciling the same batch a second time leaves the store unchanged (no
duplication on repeated ingestion). -/
theorem create_or_update_upsert (store chunks : List Chunk) (X : String)
    (hX : X ≠ "") (hmem : ∃ c ∈ chunks, c.metadata.id = X) :
    ((createOrUpdateVectorStore chunks (some store)).filter
        (fun c => c.metadata.id == X)
      = chunks.filter (fun c => c.metadata.id == X))
    ∧ (∀ Y, (∀ c ∈ chunks, c.metadata.id ≠ Y) →
        (createOrUpdateVectorStore chunks (some store)).filter
            (fun c => c.metadata.id == Y)
          = store.filter (fun c => c.metadata.id == Y))
    ∧ ((∀ c ∈ chunks, c.metadata.id ≠ "") →
        createOrUpdateVectorStore chunks
            (some (createOrUpdateVectorStore chunks (some store)))
          = createOrUpdateVectorStore chunks (some store)) := by
  have hXin : X ∈ idsToRemove chunks := (mem_idsToRemove chunks X).mpr ⟨hmem, hX⟩
  have hne : (idsToRemove chunks).isEmpty = false := by
    rcases h : idsToRemove chunks with _ | ⟨a, t⟩
    · rw [h] at hXin
      exact absurd hXin (by simp)
    · rfl
  refine ⟨?_, ?_, ?_⟩
  · rw [createOrUpdateVectorStore, hne]
    simp only [Bool.false_eq_true, if_false]
    rw [List.filter_append, chromaDelete_filter_eq_nil store _ X hXin,
      List.nil_append]
  · intro Y hY
    have hYnot : Y ∉ idsToRemove chunks := by
      intro hYin
      obtain ⟨⟨c, hc, hcid⟩, _⟩ := (mem_idsToRemove chunks Y).mp hYin
      exact hY c hc hcid
    rw [createOrUpdateVectorStore, hne]
    simp only [Bool.false_eq_true, if_false]
    rw [List.filter_append, chromaDelete_filter_unchanged store _ Y hYnot,
      filter_id_eq_nil_of_not_mem chunks Y hY, List.append_nil]
  · intro hall
    have hids : ∀ c ∈ chunks, c.metadata.id ∈ idsToRemove chunks := by
      intro c hc
      exact (mem_idsToRemove chunks _).mpr ⟨⟨c, hc, rfl⟩, hall c hc⟩
    have hdel : chromaDelete chunks (idsToRemove chunks) = [] :=
      chromaDelete_all_of_ids chunks _ hids
    have hidem : chromaDelete (chromaDelete store (idsToRemove chunks)) (idsToRemove chunks)
        = chromaDelete store (idsToRemove chunks) := by
      simp only [chromaDelete, List.filter_filter]
      exact List.filter_congr (fun c _ => Bool.and_self _)
    have hsplit : chromaDelete (chromaDelete store (idsToRemove chunks) ++ chunks)
          (idsToRemove chunks)
        = chromaDelete (chromaDelete store (idsToRemove chunks)) (idsToRemove chunks)
          ++ chromaDelete chunks (idsToRemove chunks) := by
      simp only [chromaDelete, List.filter_append]
    conv_lhs => rw [createOrUpdateVectorStore]
    rw [hne]
    simp only [Bool.false_eq_true, if_false]
    conv_lhs => rw [createOrUpdateVectorStore]
    rw [hne]
    simp only [Bool.false_eq_true, if_false]
    rw [hsplit, hidem, hdel, List.append_nil, createOrUpdateVectorStore, hne]
    simp only [Bool.false_eq_true, if_false]

/-- C1 witness. -/
theorem create_or_update_upsert_witness :
    (createOrUpdateVectorStore
        [⟨"new", { id := "X", title := "", article_number := "", type := "",
                   jurisdiction := "", url := "", date := "", fine := "",
                   currency := "", gdpr_articles := "" }⟩]
        (some [⟨"old", { id := "X", title := "", article_number := "", type := "",
                         jurisdiction := "", url := "", date := "", fine := "",
                         currency := "", gdpr_articles := "" }⟩])).filter
        (fun c => c.metadata.id == "X")
      = [⟨"new", { id := "X", title := "", article_number := "", type := "",
                   jurisdiction := "", url := "", date := "", fine := "",
                   currency := "", gdpr_articles := "" }⟩] := by
  rw [(create_or_update_upsert _ _ "X" (by decide) (by decide)).1]
  decide

/-- Example chunk metadata for the concrete instances below. -/
def exMeta (i a : String) : ChunkMeta :=
  { id := i, title := "t", article_number := a, type := "", jurisdiction := "",
    url := "u", date := "", fine := "", currency := "", gdpr_articles := "" }

/-- C8 counterexample: the list handed to the delete call is not
deduplicated — two chunks of the same document contribute the same id
twice. -/
theorem idsToRemove_has_duplicates :
    idsToRemove [⟨"c1", exMeta "A12" "5"⟩, ⟨"c2", exMeta "A12" "5"⟩] = ["A12", "A12"]
    ∧ ¬ (idsToRemove [⟨"c1", exMeta "A12" "5"⟩, ⟨"c2", exMeta "A12" "5"⟩]).Nodup :=
  ⟨by decide, by decide⟩

/-- C8 (amended): every id in the list passed to the delete step is
non-empty (a chunk with an empty id is filtered out, so an empty-id record
can never match or remove existing index entries — empty-id entries of the
store always survive reconciliation), but the list is not deduplicated: a
document with several chunks contributes its id once per chunk. -/
theorem idsToRemove_nonempty_sound (chunks : List Chunk) :
    (∀ i ∈ idsToRemove chunks, i ≠ "")
    ∧ (∀ i, i ∈ idsToRemove chunks ↔ (∃ c ∈ chunks, c.metadata.id = i) ∧ i ≠ "")
    ∧ (∀ store : List Chunk, ∀ e ∈ store, e.metadata.id = "" →
        e ∈ createOrUpdateVectorStore chunks (some store)) := by
  refine ⟨?_, fun i => mem_idsToRemove chunks i, ?_⟩
  · intro i hi
    exact ((mem_idsToRemove chunks i).mp hi).2
  · intro store e he hid
    rw [createOrUpdateVectorStore]
    by_cases hne : (idsToRemove chunks).isEmpty = true
    · rw [if_pos hne]
      exact List.mem_append_left _ he
    · rw [if_neg hne]
      refine List.mem_append_left _ ?_
      rw [chromaDelete, List.mem_filter]
      refine ⟨he, ?_⟩
      rw [hid]
      have hcon : (idsToRemove chunks).contains "" = false := by
        rcases h : (idsToRemove chunks).contains "" with _ | _
        · rfl
        · obtain ⟨y, hy, hbeq⟩ := List.contains_iff_exists_mem_beq.mp h
          have hy' : "" = y := by simpa using hbeq
          exact absurd (hy' ▸ hy : ("" : String) ∈ idsToRemove chunks)
            (fun hmem => ((mem_idsToRemove chunks "").mp hmem).2 rfl)
      simp only [hcon, Bool.not_false]

/-- C8 witness. -/
theorem idsToRemove_nonempty_sound_witness :
    (⟨"e", exMeta "" ""⟩ : Chunk) ∈ createOrUpdateVectorStore
      [⟨"c1", exMeta "A12" "5"⟩] (some [⟨"e", exMeta "" ""⟩]) :=
  (idsToRemove_nonempty_sound [⟨"c1", exMeta "A12" "5"⟩]).2.2
    [⟨"e", exMeta "" ""⟩] ⟨"e", exMeta "" ""⟩ (by decide) rfl

/-- First-match lookup in the grouping dict (`articles_dict[k]`). -/
def dictGet : List (String × GroupInfo) → String → Option GroupInfo
  | [], _ => none
  | (k, i) :: rest, key => if k = key then some i else dictGet rest key

/-- The fresh dict entry created for an unseen key (plus the immediate
`chunks.append` of the current chunk's content). -/
def newGroup (doc : Chunk) : GroupInfo :=
  { title := doc.metadata.title, id := doc.metadata.id, url := doc.metadata.url,
    chunks := [doc.page_content] }

theorem dictGet_dictInsert_same (dict : List (String × GroupInfo)) (key : String)
    (doc : Chunk) :
    dictGet (dictInsert dict key doc) key =
      some (match dictGet dict key with
            | some i => { i with chunks := i.chunks ++ [doc.page_content] }
            | none => newGroup doc) := by
  induction dict with
  | nil => simp [dictInsert, dictGet, newGroup]
  | cons p rest ih =>
    obtain ⟨k, i⟩ := p
    by_cases hk : k = key
    · subst hk
      simp [dictInsert, dictGet]
    · simp [dictInsert, dictGet, hk, ih]

theorem dictGet_dictInsert_other (dict : List (String × GroupInfo)) (key k : String)
    (doc : Chunk) (hk : k ≠ key) :
    dictGet (dictInsert dict key doc) k = dictGet dict k := by
  induction dict with
  | nil => simp only [dictInsert, dictGet, if_neg (Ne.symm hk)]
  | cons p rest ih =>
    obtain ⟨k', i'⟩ := p
    by_cases hk' : k' = key
    · subst hk'
      simp only [dictInsert, if_pos rfl, dictGet, if_neg (Ne.symm hk)]
    · simp only [dictInsert, if_neg hk', dictGet, ih]

theorem keys_dictInsert (dict : List (String × GroupInfo)) (key : String) (doc : Chunk) :
    (dictInsert dict key doc).map Prod.fst =
      if key ∈ dict.map Prod.fst then dict.map Prod.fst
      else dict.map Prod.fst ++ [key] := by
  induction dict with
  | nil => simp [dictInsert]
  | cons p rest ih =>
    obtain ⟨k, i⟩ := p
    by_cases hk : k = key
    · subst hk
      simp [dictInsert]
    · simp only [dictInsert, if_neg hk, List.map_cons, ih]
      by_cases hmem : key ∈ rest.map Prod.fst
      · simp [hmem, Ne.symm hk]
      · simp [hmem, Ne.symm hk]

theorem dictGet_mem (dict : List (String × GroupInfo)) (k : String) (i : GroupInfo)
    (h : dictGet dict k = some i) : (k, i) ∈ dict := by
  induction dict with
  | nil => exact absurd h (by simp [dictGet])
  | cons p rest ih =>
    obtain ⟨k', i'⟩ := p
    by_cases hk : k' = k
    · subst hk
      rw [dictGet, if_pos rfl] at h
      rw [Option.some.inj h]
      exact List.mem_cons_self _ _
    · rw [dictGet, if_neg hk] at h
      exact List.mem_cons_of_mem _ (ih h)

theorem mem_dictGet (dict : List (String × GroupInfo))
    (hnd : (dict.map Prod.fst).Nodup) (k : String) (i : GroupInfo)
    (h : (k, i) ∈ dict) : dictGet dict k = some i := by
  induction dict with
  | nil => exact absurd h (by simp)
  | cons p rest ih =>
    obtain ⟨k', i'⟩ := p
    rw [List.map_cons, List.nodup_cons] at hnd
    rcases List.mem_cons.mp h with he | hm
    · rw [Prod.mk.injEq] at he
      rw [dictGet, if_pos he.1.symm]
      rw [he.2]
    · have hk : k' ≠ k := by
        intro e
        subst e
        exact hnd.1 (List.mem_map.mpr ⟨(k', i), hm, rfl⟩)
      rw [dictGet, if_neg hk]
      exact ih hnd.2 hm

theorem mem_keys_iff_dictGet (dict : List (String × GroupInfo)) (k : String) :
    k ∈ dict.map Prod.fst ↔ dictGet dict k ≠ none := by
  induction dict with
  | nil => simp [dictGet]
  | cons p rest ih =>
    obtain ⟨k', i'⟩ := p
    by_cases hk : k' = k
    · subst hk
      simp [dictGet]
    · rw [List.map_cons, List.mem_cons, dictGet, if_neg hk, ← ih]
      constructor
      · intro h
        exact h.resolve_left (Ne.symm hk)
      · intro h
        exact Or.inr h

theorem articlesDict_append (docs : List Chunk) (d : Chunk) :
    articlesDict (docs ++ [d])
      = dictInsert (articlesDict docs) d.metadata.article_number d := by
  simp [articlesDict, List.foldl_append]

theorem articlesDict_spec (docs : List Chunk) :
    ((articlesDict docs).map Prod.fst).Nodup
    ∧ (∀ k, (dictGet (articlesDict docs) k ≠ none
        ↔ k ∈ docs.map (fun d => d.metadata.article_number)))
    ∧ (∀ k i, dictGet (articlesDict docs) k = some i →
        i.chunks = (docs.filter (fun d => d.metadata.article_number == k)).map
          (fun d => d.page_content)) := by
  induction docs using List.reverseRecOn with
  | nil =>
    refine ⟨List.nodup_nil, ?_, ?_⟩
    · intro k
      simp [articlesDict, dictGet]
    · intro k i h
      exact absurd h (by simp [articlesDict, dictGet])
  | append_singleton docs d ih =>
    obtain ⟨ihn, ihm, ihc⟩ := ih
    refine ⟨?_, ?_, ?_⟩
    · rw [articlesDict_append, keys_dictInsert]
      by_cases hmem : d.metadata.article_number ∈ (articlesDict docs).map Prod.fst
      · rw [if_pos hmem]
        exact ihn
      · rw [if_neg hmem]
        rw [List.nodup_append]
        exact ⟨ihn, List.nodup_singleton _, by simpa using hmem⟩
    · intro k
      rw [articlesDict_append]
      by_cases hk : k = d.metadata.article_number
      · subst hk
        rw [dictGet_dictInsert_same]
        simp
      · rw [dictGet_dictInsert_other _ _ _ _ hk, List.map_append]
        simp only [List.map_cons, List.map_nil, List.mem_append,
          List.mem_singleton]
        exact ⟨fun h => Or.inl ((ihm k).mp h),
          fun h => (ihm k).mpr (h.resolve_right hk)⟩
    · intro k i hget
      rw [articlesDict_append] at hget
      by_cases hk : k = d.metadata.article_number
      · rw [← hk] at hget
        rw [dictGet_dictInsert_same] at hget
        have hfil : (docs ++ [d]).filter (fun x => x.metadata.article_number == k)
            = docs.filter (fun x => x.metadata.article_number == k) ++ [d] := by
          rw [List.filter_append]
          simp [← hk]
        rcases hprev : dictGet (articlesDict docs) k with _ | j
        · rw [hprev] at hget
          have hnil : docs.filter (fun x => x.metadata.article_number == k) = [] := by
            rw [List.filter_eq_nil_iff]
            intro x hx hbeq
            have hxa : x.metadata.article_number = k := by simpa using hbeq
            have hmm : k ∈ docs.map (fun d => d.metadata.article_number) :=
              List.mem_map.mpr ⟨x, hx, hxa⟩
            have hne2 : dictGet (articlesDict docs) k ≠ none := (ihm k).mpr hmm
            rw [hprev] at hne2
            exact absurd rfl hne2
          rw [← Option.some.inj hget, hfil, hnil]
          simp [newGroup]
        · rw [hprev] at hget
          have hj := ihc k j hprev
          rw [← Option.some.inj hget, hfil, List.map_append]
          simp [hj]
      · rw [dictGet_dictInsert_other _ _ _ _ hk] at hget
        have hcs := ihc k i hget
        rw [List.filter_append]
        have hdz : ([d] : List Chunk).filter (fun x => x.metadata.article_number == k)
            = [] := by
          simp [Ne.symm hk]
        rw [hdz, List.append_nil, hcs]

/-- The five retrieved chunks of the grouping counterexample: three carry
id `A12`, two carry id `B7`, and all five carry the same
`article_number`. -/
def cexDocs : List Chunk :=
  [⟨"c1", exMeta "A12" "5"⟩, ⟨"c2", exMeta "A12" "5"⟩, ⟨"c3", exMeta "B7" "5"⟩,
   ⟨"c4", exMeta "A12" "5"⟩, ⟨"c5", exMeta "B7" "5"⟩]

/-- C2 counterexample: five retrieved chunks with exactly two distinct ids
(three × `A12`, two × `B7`) produce one group, not two — the aggregator
keys groups on `article_number`, not on `id`. -/
theorem rag_grouping_not_by_id :
    (cexDocs.map (fun d => d.metadata.id)).toFinset.card = 2
    ∧ (cexDocs.filter (fun d => d.metadata.id == "A12")).length = 3
    ∧ (cexDocs.filter (fun d => d.metadata.id == "B7")).length = 2
    ∧ (articlesDict cexDocs).length = 1
    ∧ (articlesDict cexDocs).length ≠ 2 := by
  refine ⟨?_, by decide, by decide, by decide, by decide⟩
  simp [cexDocs, exMeta]

/-- C2 (amended): the retrieval aggregator groups retrieved chunks by the
`article_number` metadata field, not by `id`: group keys are distinct and
are exactly the `article_number` values occurring among the retrieved
chunks; each group's chunk list is the retrieval-ordered list of contents
of the chunks carrying that `article_number`; and every context block's
content joins at most the first two chunks of its group with the
`[...continued...]` marker. -/
theorem rag_groups_by_article_number (docs : List Chunk) :
    ((articlesDict docs).map Prod.fst).Nodup
    ∧ (∀ k, k ∈ (articlesDict docs).map Prod.fst
        ↔ k ∈ docs.map (fun d => d.metadata.article_number))
    ∧ (∀ k i, (k, i) ∈ articlesDict docs →
        i.chunks = (docs.filter (fun d => d.metadata.article_number == k)).map
          (fun d => d.page_content))
    ∧ (∀ b ∈ contextBlocks docs, ∃ k i, (k, i) ∈ articlesDict docs
        ∧ b = buildBlock k i
        ∧ b.content = String.intercalate contMarker (i.chunks.take 2)
        ∧ (i.chunks.take 2).length ≤ 2) := by
  obtain ⟨hnd, hm, hc⟩ := articlesDict_spec docs
  refine ⟨hnd, ?_, ?_, ?_⟩
  · intro k
    rw [mem_keys_iff_dictGet, hm k]
  · intro k i hmem
    exact hc k i (mem_dictGet _ hnd k i hmem)
  · intro b hb
    rw [contextBlocks, List.mem_map] at hb
    obtain ⟨p, hp, hbp⟩ := hb
    rw [sortedDict] at hp
    have hp' : p ∈ articlesDict docs := (List.mergeSort_perm _ _).mem_iff.mp hp
    refine ⟨p.1, p.2, hp', hbp.symm, ?_, List.length_take_le _ _⟩
    rw [← hbp]
    rfl

/-- C2 witness. -/
theorem rag_groups_by_article_number_witness :
    ((articlesDict cexDocs).map Prod.fst).Nodup :=
  (rag_groups_by_article_number cexDocs).1

theorem dictInsert_ne_nil (dict : List (String × GroupInfo)) (key : String) (doc : Chunk) :
    dictInsert dict key doc ≠ [] := by
  cases dict with
  | nil => simp [dictInsert]
  | cons p rest =>
    obtain ⟨k, i⟩ := p
    rw [dictInsert]
    by_cases hk : k = key
    · rw [if_pos hk]
      simp
    · rw [if_neg hk]
      simp

theorem foldl_dictInsert_ne_nil (docs : List Chunk) (acc : List (String × GroupInfo))
    (h : acc ≠ []) :
    docs.foldl (fun dict doc => dictInsert dict doc.metadata.article_number doc) acc
      ≠ [] := by
  induction docs generalizing acc with
  | nil => exact h
  | cons d rest ih =>
    rw [List.foldl_cons]
    exact ih _ (dictInsert_ne_nil _ _ _)

theorem articlesDict_ne_nil (docs : List Chunk) (h : docs ≠ []) :
    articlesDict docs ≠ [] := by
  cases docs with
  | nil => exact absurd rfl h
  | cons d rest =>
    rw [articlesDict, List.foldl_cons]
    exact foldl_dictInsert_ne_nil rest _ (dictInsert_ne_nil _ _ _)

/-- C4: zero retrieved chunks is surfaced to the caller as an explicit
empty-result signal: the aggregation yields the descriptive error of the
Python `assert len(docs) > 0` exactly when the search returned no chunks;
a non-empty result never produces that signal, so the empty-result
condition is neither silently swallowed nor reported spuriously. -/
theorem empty_retrieval_surfaced (q : String) (docs : List Chunk) :
    docs = [] ↔ ragRetrievalContext q docs
      = Except.error ("No documents found for query: " ++ q) := by
  constructor
  · rintro rfl
    rfl
  · intro h
    by_contra hne
    rw [ragRetrievalContext] at h
    have hlen : ¬ docs.length = 0 := by
      simpa [List.length_eq_zero] using hne
    rw [if_neg hlen] at h
    have hdict : ¬ (articlesDict docs).length = 0 := by
      simpa [List.length_eq_zero] using articlesDict_ne_nil docs hne
    rw [if_neg hdict] at h
    exact Except.noConfusion h

/-- C4 witness. -/
theorem empty_retrieval_surfaced_witness :
    ragRetrievalContext "gdpr" []
      = Except.error ("No documents found for query: " ++ "gdpr") :=
  (empty_retrieval_surfaced "gdpr" []).mp rfl

theorem jget_eq_empty_of_no_key (item : JsonObj) (k : String)
    (h : ∀ kv ∈ item, kv.1 ≠ k) : jget item k = "" := by
  rw [jget, List.find?_eq_none.mpr]
  · rfl
  · intro kv hkv
    simp [h kv hkv]

/-- C10: the chunk metadata field `date` is populated from the record's
`"data"` key — `item.get("data", "")` in the source — not from its
`"date"` key; consequently, for records that (like the exporter's output)
carry no `"data"` key, every produced chunk has the empty string as its
`date` metadata, and the record's date value never reaches the index
metadata. -/
theorem date_metadata_reads_data_key (splitText : String → List String)
    (items : List JsonObj)
    (hnd : ∀ it ∈ items, ∀ kv ∈ it, kv.1 ≠ "data") :
    (∀ it : JsonObj, (mkMetadata it).date = jget it "data")
    ∧ (loadAndProcessJson splitText items).all
        (fun c => c.metadata.date == "") = true := by
  refine ⟨fun it => rfl, ?_⟩
  rw [List.all_eq_true]
  intro c hc
  rw [loadAndProcessJson, List.mem_flatMap] at hc
  obtain ⟨d, hd, hcd⟩ := hc
  rw [List.mem_map] at hd hcd
  obtain ⟨it, hit, hdit⟩ := hd
  obtain ⟨piece, hpiece, hcp⟩ := hcd
  have hmeta : c.metadata = d.2 := by
    rw [← hcp]
  rw [hmeta, ← hdit]
  show ((mkMetadata it).date == "") = true
  rw [show (mkMetadata it).date = jget it "data" from rfl,
    jget_eq_empty_of_no_key it "data" (hnd it hit)]
  rfl

/-- C10 witness. -/
theorem date_metadata_reads_data_key_witness :
    (loadAndProcessJson (fun s => [s])
        [[("date", "2024-01-01"), ("id", "x")]]).all
      (fun c => c.metadata.date == "") = true :=
  (date_metadata_reads_data_key (fun s => [s])
    [[("date", "2024-01-01"), ("id", "x")]] (by decide)).2
